import Mathlib

/-!
Shallow embedding of `microevents` (`src/microevents/event_bus.py` and
`src/microevents/core.py`): an in-process event bus with priority/once
handlers, fail-fast dispatch, and a sync convenience wrapper.

Python callables are modelled by an identity (`Callback.id`, object identity
for `is` comparisons) together with a `callable` flag (the result of
`callable(h)`).  Handler invocation effects are modelled by a log of
invocations in a `World`, and the outcome of each call is given by an
environment `beh : Nat → Option Nat` mapping a callback identity to `none`
(the call, including awaiting an async result, completes normally) or
`some e` (the call raises exception `e`, which `emit` propagates unchanged).
The per-bus dict `self._handlers` is modelled as a total function from event
names to handler lists (absent key = empty list, matching `dict.get(event, [])`).
The per-bus lock serialises operations; the embedding is the sequential
semantics of the code run under that lock discipline.
-/

namespace Microevents

/-- A Python callable value: `id` is the object identity (used by `is`
comparisons), `callable` records whether `callable(h)` holds. -/
structure Callback where
  id : Nat
  callable : Bool
deriving DecidableEq, Repr

/-- Embeds the `_Handler` dataclass: `priority`, registration `order`,
the stored callback's identity (`func`), and the `once` flag.
The derived field `sort_index = (-priority, order)` set in `__post_init__`
is modelled by the function `_Handler.sort_index` below. -/
structure _Handler where
  priority : Int
  order : Nat
  func : Nat
  once : Bool
deriving DecidableEq, Repr

/-- `sort_index` as assigned in `_Handler.__post_init__`: `(-priority, order)`. -/
def _Handler.sort_index (h : _Handler) : Int × Nat := (-h.priority, h.order)

/-- Python dataclass `__eq__` for `_Handler` (`order=True` dataclass):
compares the tuple of compared fields `(sort_index, priority, order)`;
`func` and `once` have `compare=False` and do not participate. -/
def _Handler.pyEq (a b : _Handler) : Bool :=
  a.sort_index == b.sort_index && a.priority == b.priority && a.order == b.order

/-- Python dataclass `__lt__` for `_Handler`: lexicographic comparison of
`(sort_index, priority, order)`, i.e. of `((-priority, order), priority, order)`. -/
def _Handler.pyLt (a b : _Handler) : Bool :=
  if a.sort_index.1 ≠ b.sort_index.1 then decide (a.sort_index.1 < b.sort_index.1)
  else if a.sort_index.2 ≠ b.sort_index.2 then decide (a.sort_index.2 < b.sort_index.2)
  else if a.priority ≠ b.priority then decide (a.priority < b.priority)
  else decide (a.order < b.order)

/-- The non-strict comparator induced by `__lt__`, as used by Python's stable
`list.sort()`: `a` may stay before `b` iff `not (b < a)`. -/
def _Handler.sortLe (a b : _Handler) : Bool := !(_Handler.pyLt b a)

/-- `handlers.sort()` in `EventBus.emit`: Python's stable sort with the
dataclass ordering, embedded as the stable `List.mergeSort` under `sortLe`. -/
def sortHandlers (l : List _Handler) : List _Handler :=
  l.mergeSort _Handler.sortLe

/-- The error raised by `EventBus.on` for a non-callable handler
(`TypeError("handler must be callable")`; the spec names it
`InvalidHandlerError`). -/
inductive PyErr where
  | typeError (msg : String)
deriving DecidableEq, Repr

/-- Embeds the `EventBus` state: `self._handlers` (dict from event name to
handler list, total function with empty default) and `self._counter`. -/
structure EventBus where
  handlers : String → List _Handler
  counter : Nat

/-- `EventBus.__init__`: empty handler dict, counter 0. -/
def EventBus.init : EventBus :=
  { handlers := fun _ => [], counter := 0 }

/-- Embeds `EventBus.on`.  Raising is modelled by returning the state at the
point of the raise together with `Except.error`; the `callable` check precedes
every mutation in the source. -/
def EventBus.on (bus : EventBus) (event : String) (handler : Callback)
    (priority : Int) (once : Bool) : EventBus × Except PyErr Unit :=
  if !handler.callable then
    (bus, Except.error (PyErr.typeError "handler must be callable"))
  else
    let c := bus.counter + 1
    let h : _Handler := { priority := priority, order := c, func := handler.id, once := once }
    ({ handlers := fun e => if e = event then bus.handlers e ++ [h] else bus.handlers e,
       counter := c },
     Except.ok ())

/-- Embeds `EventBus.off`: with `none`, drop every record for `event` and
return the count; with `some f`, keep records whose callback is not
identical (`is not`) to `f` and return the number removed; empty/unknown
event returns 0 unchanged. -/
def EventBus.off (bus : EventBus) (event : String) (handler : Option Nat) :
    EventBus × Nat :=
  let lst := bus.handlers event
  if lst.isEmpty then (bus, 0)
  else
    match handler with
    | none =>
        ({ bus with handlers := fun e => if e = event then [] else bus.handlers e },
         lst.length)
    | some f =>
        let kept := lst.filter (fun h => h.func != f)
        ({ bus with handlers := fun e => if e = event then kept else bus.handlers e },
         lst.length - kept.length)

/-- Embeds `EventBus.clear`: `self._handlers.clear()`. -/
def EventBus.clear (bus : EventBus) : EventBus :=
  { bus with handlers := fun _ => [] }

/-- Embeds `EventBus.list_receivers`: the stored callbacks for `event`. -/
def EventBus.list_receivers (bus : EventBus) (event : String) : List Nat :=
  (bus.handlers event).map (fun h => h.func)

/-- Observable world: the log of handler invocations `(callback id, event)`,
appended to at the moment `h.call(event, ...)` runs. -/
structure World where
  log : List (Nat × String)
deriving DecidableEq, Repr

/-- The handler loop of `EventBus.emit`: call each handler in order
(awaiting as needed), appending `once` handlers to `to_remove`; the first
exception aborts the loop and propagates. -/
def dispatchLoop (beh : Nat → Option Nat) (event : String) :
    List _Handler → World → List _Handler → Except Nat (List _Handler) × World
  | [], w, toRemove => (Except.ok toRemove, w)
  | h :: rest, w, toRemove =>
      let w2 : World := { log := w.log ++ [(h.func, event)] }
      match beh h.func with
      | some e => (Except.error e, w2)
      | none =>
          dispatchLoop beh event rest w2 (if h.once then toRemove ++ [h] else toRemove)

/-- The post-dispatch once-removal block of `EventBus.emit`
(`if to_remove: ... [x for x in current if x not in to_remove]`):
Python's `in` uses the dataclass `__eq__`, i.e. `pyEq`. -/
def EventBus.onceCleanup (bus : EventBus) (event : String)
    (toRemove : List _Handler) : EventBus :=
  if toRemove.isEmpty then bus
  else
    let current := bus.handlers event
    let kept := current.filter (fun x => !(toRemove.any (fun t => x.pyEq t)))
    { bus with handlers := fun e => if e = event then kept else bus.handlers e }

/-- Embeds `EventBus.emit`: snapshot under the lock, sort, run the handler
loop, and — only when the loop completes without an exception — run the
once-cleanup.  An exception propagates immediately, skipping the cleanup. -/
def EventBus.emit (bus : EventBus) (beh : Nat → Option Nat) (event : String)
    (w : World) : Except Nat Unit × EventBus × World :=
  match dispatchLoop beh event (sortHandlers (bus.handlers event)) w [] with
  | (Except.error e, w2) => (Except.error e, bus, w2)
  | (Except.ok toRemove, w2) => (Except.ok (), bus.onceCleanup event toRemove, w2)

/-- An `asyncio.Task` handle returned by `loop.create_task(self.emit(...))`:
carries the scheduled dispatch and its eventual outcome. -/
structure Task where
  coro : Except Nat Unit × EventBus × World

/-- Embeds `EventBus.emit_sync`: with no running loop, `asyncio.run` drives
the dispatch to completion and `None` is returned (an exception from `emit`
propagates through `asyncio.run`, reflected in the `Except` component); with
a running loop, a `Task` is created and returned at once, the caller's state
untouched at return time. -/
def EventBus.emit_sync (bus : EventBus) (loopRunning : Bool)
    (beh : Nat → Option Nat) (event : String) (w : World) :
    Option Task × Except Nat Unit × EventBus × World :=
  if loopRunning then
    (some { coro := bus.emit beh event w }, Except.ok (), bus, w)
  else
    let r := bus.emit beh event w
    (none, r.1, r.2.1, r.2.2)

/-! ### Helper lemmas -/

/-- The stable-sort comparator says: `a` may precede `b` iff `a` has strictly
higher priority, or equal priority and `a.order ≤ b.order`. -/
theorem _Handler.sortLe_iff (a b : _Handler) :
    _Handler.sortLe a b = true ↔
      b.priority < a.priority ∨ (a.priority = b.priority ∧ a.order ≤ b.order) := by
  simp only [_Handler.sortLe, _Handler.pyLt, _Handler.sort_index, Bool.not_eq_true']
  split_ifs with h1 h2 h3
  all_goals simp_all
  all_goals omega

theorem _Handler.sortLe_trans (a b c : _Handler) (hab : _Handler.sortLe a b)
    (hbc : _Handler.sortLe b c) : _Handler.sortLe a c := by
  rw [_Handler.sortLe_iff] at *
  omega

theorem _Handler.sortLe_total (a b : _Handler) :
    _Handler.sortLe a b || _Handler.sortLe b a := by
  rw [Bool.or_eq_true, _Handler.sortLe_iff, _Handler.sortLe_iff]
  omega

theorem sortHandlers_nil : sortHandlers [] = [] := by
  simp [sortHandlers]

theorem sortHandlers_singleton (a : _Handler) : sortHandlers [a] = [a] := by
  simp [sortHandlers]

theorem sortHandlers_pair (a b : _Handler) :
    sortHandlers [a, b] = if _Handler.sortLe a b then [a, b] else [b, a] := by
  simp [sortHandlers, List.mergeSort, List.splitInTwo, List.splitAt,
    List.splitAt.go, List.merge]

theorem sortHandlers_perm (l : List _Handler) : (sortHandlers l).Perm l :=
  List.mergeSort_perm l _

theorem mem_sortHandlers {a : _Handler} {l : List _Handler} :
    a ∈ sortHandlers l ↔ a ∈ l :=
  List.mem_mergeSort

theorem sortHandlers_sorted (l : List _Handler) :
    (sortHandlers l).Pairwise
      (fun a b => b.priority < a.priority ∨ (a.priority = b.priority ∧ a.order ≤ b.order)) := by
  have h := List.sorted_mergeSort _Handler.sortLe_trans _Handler.sortLe_total l
  exact h.imp (fun hab => (_Handler.sortLe_iff _ _).1 hab)

/-- When every handler in the list completes normally, the loop returns the
accumulated once-records and logs every invocation in list order. -/
theorem dispatchLoop_ok (beh : Nat → Option Nat) (event : String)
    (l : List _Handler) :
    ∀ (w : World) (acc : List _Handler), (∀ x ∈ l, beh x.func = none) →
      dispatchLoop beh event l w acc
        = (Except.ok (acc ++ l.filter (fun x => x.once)),
           { log := w.log ++ l.map (fun x => (x.func, event)) }) := by
  induction l with
  | nil => intro w acc h; simp [dispatchLoop]
  | cons x l ih =>
      intro w acc h
      have hx : beh x.func = none := h x (List.mem_cons_self x l)
      simp only [dispatchLoop, hx]
      rw [ih _ _ (fun y hy => h y (List.mem_cons_of_mem x hy))]
      cases hxo : x.once <;> simp [hxo, List.filter_cons]

/-- When the handlers before `hf` complete and `hf` raises `e`, the loop
stops at `hf` with error `e`; only the handlers up to and including `hf`
appear in the log. -/
theorem dispatchLoop_error (beh : Nat → Option Nat) (event : String) (e : Nat)
    (l₁ : List _Handler) (hf : _Handler) (l₂ : List _Handler) :
    ∀ (w : World) (acc : List _Handler), (∀ x ∈ l₁, beh x.func = none) →
      beh hf.func = some e →
      dispatchLoop beh event (l₁ ++ hf :: l₂) w acc
        = (Except.error e,
           { log := w.log ++ (l₁ ++ [hf]).map (fun x => (x.func, event)) }) := by
  induction l₁ with
  | nil => intro w acc h hfe; simp [dispatchLoop, hfe]
  | cons x l ih =>
      intro w acc h hfe
      have hx : beh x.func = none := h x (List.mem_cons_self x _)
      simp only [List.cons_append, dispatchLoop, hx]
      simp only [List.append_eq]
      rw [ih _ _ (fun y hy => h y (List.mem_cons_of_mem x hy)) hfe]
      simp

/-- Every log entry after a loop run is either an old entry or an invocation
of a handler from the input list. -/
theorem dispatchLoop_log_mem (beh : Nat → Option Nat) (event : String)
    (l : List _Handler) :
    ∀ (w : World) (acc : List _Handler) (q : Nat × String),
      q ∈ (dispatchLoop beh event l w acc).2.log →
      q ∈ w.log ∨ ∃ x ∈ l, q = (x.func, event) := by
  induction l with
  | nil => intro w acc q hq; exact Or.inl (by simpa [dispatchLoop] using hq)
  | cons x l ih =>
      intro w acc q hq
      simp only [dispatchLoop] at hq
      cases hbx : beh x.func with
      | some e =>
          rw [hbx] at hq
          simp only [List.mem_append] at hq
          rcases hq with hq | hq
          · exact Or.inl hq
          · exact Or.inr ⟨x, List.mem_cons_self x l, by simpa using hq⟩
      | none =>
          rw [hbx] at hq
          rcases ih _ _ q hq with hq' | ⟨y, hy, hqy⟩
          · simp only [List.mem_append] at hq'
            rcases hq' with hq' | hq'
            · exact Or.inl hq'
            · exact Or.inr ⟨x, List.mem_cons_self x l, by simpa using hq'⟩
          · exact Or.inr ⟨y, List.mem_cons_of_mem x hy, hqy⟩

/-- Dispatch with no raising handler: returns `ok`, runs the once-cleanup on
the once-records of the sorted snapshot, and logs the snapshot in order. -/
theorem emit_eq_of_all_ok (bus : EventBus) (beh : Nat → Option Nat)
    (event : String) (w : World)
    (h : ∀ x ∈ bus.handlers event, beh x.func = none) :
    bus.emit beh event w
      = (Except.ok (),
         bus.onceCleanup event ((sortHandlers (bus.handlers event)).filter (fun x => x.once)),
         { log := w.log ++ (sortHandlers (bus.handlers event)).map (fun x => (x.func, event)) }) := by
  have hs : ∀ x ∈ sortHandlers (bus.handlers event), beh x.func = none :=
    fun x hx => h x (mem_sortHandlers.1 hx)
  unfold EventBus.emit
  rw [dispatchLoop_ok _ _ _ _ _ hs]
  simp

/-! ### Claim theorems -/

/-- C2: `emit` invokes handlers in exactly the order obtained by sorting the
dispatch snapshot by `(-priority, sequence)` ascending — descending priority,
ties broken by ascending registration order.  The invocation log extends the
prior log by exactly the sorted snapshot; the sorted snapshot is a
permutation of the snapshot, pairwise ordered by descending priority with
ascending sequence on ties; the order is a deterministic function of the
registered handlers (a pure function of the registry).  In particular,
registering `H` then `H2`, both with priority 10, on a fresh bus yields
dispatch order `[H, H2]`, never `[H2, H]`. -/
theorem emit_dispatch_order (bus : EventBus) (beh : Nat → Option Nat)
    (event : String) (w : World)
    (hok : ∀ x ∈ bus.handlers event, beh x.func = none) :
    ((sortHandlers (bus.handlers event)).Perm (bus.handlers event)
      ∧ (sortHandlers (bus.handlers event)).Pairwise
          (fun a b => b.priority < a.priority ∨ (a.priority = b.priority ∧ a.order ≤ b.order))
      ∧ (bus.emit beh event w).2.2.log
          = w.log ++ (sortHandlers (bus.handlers event)).map (fun x => (x.func, event)))
    ∧ (∀ H H2 : Callback, H.callable = true → H2.callable = true →
        beh H.id = none → beh H2.id = none →
        ((((EventBus.init.on event H 10 false).1.on event H2 10 false).1.emit
            beh event w).2.2.log
          = w.log ++ [(H.id, event), (H2.id, event)])) := by
  constructor
  · refine ⟨sortHandlers_perm _, sortHandlers_sorted _, ?_⟩
    rw [emit_eq_of_all_ok _ _ _ _ hok]
  · intro H H2 hH hH2 hbH hbH2
    have hreg : (((EventBus.init.on event H 10 false).1.on event H2 10 false).1).handlers event
        = [⟨10, 1, H.id, false⟩, ⟨10, 2, H2.id, false⟩] := by
      simp [EventBus.init, EventBus.on, hH, hH2]
    have hall : ∀ x ∈ (((EventBus.init.on event H 10 false).1.on event H2 10 false).1).handlers event,
        beh x.func = none := by
      rw [hreg]
      intro x hx
      rcases List.mem_cons.1 hx with rfl | hx
      · simpa using hbH
      · rcases List.mem_cons.1 hx with rfl | hx
        · simpa using hbH2
        · cases hx
    rw [emit_eq_of_all_ok _ _ _ _ hall, hreg]
    have hle : _Handler.sortLe ⟨10, 1, H.id, false⟩ ⟨10, 2, H2.id, false⟩ = true :=
      (_Handler.sortLe_iff _ _).2 (Or.inr ⟨rfl, by norm_num⟩)
    rw [sortHandlers_pair, if_pos hle]
    simp

/-- C2 witness: registering callbacks 1 then 2, both priority 10, dispatch
logs `[(1, "e"), (2, "e")]` in that order. -/
theorem emit_dispatch_order_witness :
    ((((EventBus.init.on "e" ⟨1, true⟩ 10 false).1.on "e" ⟨2, true⟩ 10 false).1.emit
        (fun _ => none) "e" { log := [] }).2.2.log = [(1, "e"), (2, "e")]) := by
  have h := (emit_dispatch_order EventBus.init (fun _ => none) "e" { log := [] }
      (fun x hx => rfl)).2 ⟨1, true⟩ ⟨2, true⟩ rfl rfl rfl rfl
  simpa using h

/-- C3: when the sorted snapshot splits as `l₁ ++ hf :: l₂` with every handler
of `l₁` completing and `hf` raising `e`, `emit` propagates exactly `e`
unchanged, invokes no handler of `l₂` (the log ends at `hf`), keeps the
effects of the handlers invoked before `hf` (their log entries remain — no
rollback), and returns the registry untouched. -/
theorem emit_fail_fast (bus : EventBus) (beh : Nat → Option Nat) (event : String)
    (w : World) (e : Nat) (l₁ : List _Handler) (hf : _Handler) (l₂ : List _Handler)
    (hsplit : sortHandlers (bus.handlers event) = l₁ ++ hf :: l₂)
    (h₁ : ∀ x ∈ l₁, beh x.func = none)
    (hfe : beh hf.func = some e) :
    bus.emit beh event w
      = (Except.error e, bus,
         { log := w.log ++ (l₁ ++ [hf]).map (fun x => (x.func, event)) }) := by
  unfold EventBus.emit
  rw [hsplit, dispatchLoop_error _ _ _ _ _ _ _ _ h₁ hfe]

/-- C3 witness: handler 1 (priority 1) completes, handler 2 (priority 0)
raises 5: `emit` errors with 5, logs only handlers 1 and 2, keeps handler 1's
effect, and leaves the registry untouched. -/
theorem emit_fail_fast_witness :
    (((EventBus.init.on "e" ⟨1, true⟩ 1 false).1.on "e" ⟨2, true⟩ 0 false).1.emit
        (fun f => if f = 2 then some 5 else none) "e" { log := [] })
      = (Except.error 5,
         ((EventBus.init.on "e" ⟨1, true⟩ 1 false).1.on "e" ⟨2, true⟩ 0 false).1,
         { log := [(1, "e"), (2, "e")] }) := by
  have hreg : ((((EventBus.init.on "e" ⟨1, true⟩ 1 false).1.on "e" ⟨2, true⟩ 0 false).1).handlers "e")
      = [⟨1, 1, 1, false⟩, ⟨0, 2, 2, false⟩] := by
    simp [EventBus.init, EventBus.on]
  have hsplit : sortHandlers ((((EventBus.init.on "e" ⟨1, true⟩ 1 false).1.on "e" ⟨2, true⟩ 0 false).1).handlers "e")
      = [(⟨1, 1, 1, false⟩ : _Handler)] ++ (⟨0, 2, 2, false⟩ : _Handler) :: [] := by
    rw [hreg, sortHandlers_pair]
    norm_num [_Handler.sortLe_iff]
  have h := emit_fail_fast _ (fun f => if f = 2 then some 5 else none) "e" { log := [] }
      5 [(⟨1, 1, 1, false⟩ : _Handler)] (⟨0, 2, 2, false⟩ : _Handler) [] hsplit
      (by intro x hx; simp at hx; subst hx; rfl) (by rfl)
  simpa using h

/-- C1 (counterexample): on a fresh bus, callback 1 is registered with
`once = true` and raises 7 when dispatched.  The claim says a once handler
that raises is still removed; the code skips the cleanup block when an
exception propagates, so after the failing dispatch the handler is still
registered. -/
theorem once_raising_handler_not_removed_cex :
    (((EventBus.init.on "e" ⟨1, true⟩ 0 true).1.emit (fun _ => some 7) "e"
        { log := [] }).1 = Except.error 7)
    ∧ (((EventBus.init.on "e" ⟨1, true⟩ 0 true).1.emit (fun _ => some 7) "e"
        { log := [] }).2.1.list_receivers "e" = [1]) := by
  constructor <;>
    simp [EventBus.init, EventBus.on, EventBus.emit, EventBus.list_receivers,
      sortHandlers, dispatchLoop]

/-- C1 (amended): when any handler raises, `emit` removes nothing at all —
the registry is returned unchanged (the exception skips the cleanup block),
so no once record, not even the raising one or those invoked before it, is
removed by that dispatch; when every handler of the snapshot completes,
exactly the once records of the snapshot are removed via the cleanup. -/
theorem emit_once_cleanup_only_on_success (bus : EventBus) (beh : Nat → Option Nat)
    (event : String) (w : World) :
    (∀ e : Nat, (bus.emit beh event w).1 = Except.error e →
        (bus.emit beh event w).2.1 = bus)
    ∧ ((∀ x ∈ bus.handlers event, beh x.func = none) →
        (bus.emit beh event w).2.1
          = bus.onceCleanup event
              ((sortHandlers (bus.handlers event)).filter (fun x => x.once))) := by
  constructor
  · intro e he
    unfold EventBus.emit at he ⊢
    rcases hdl : dispatchLoop beh event (sortHandlers (bus.handlers event)) w [] with ⟨r, w2⟩
    rw [hdl] at he
    cases r with
    | error e2 => rfl
    | ok tr => exact Except.noConfusion he
  · intro hok
    rw [emit_eq_of_all_ok _ _ _ _ hok]

/-- C1 amended witness: the failing dispatch of the counterexample's bus
leaves the registry exactly as it was. -/
theorem emit_once_cleanup_only_on_success_witness :
    ((EventBus.init.on "e" ⟨1, true⟩ 0 true).1.emit (fun _ => some 7) "e"
        { log := [] }).2.1 = (EventBus.init.on "e" ⟨1, true⟩ 0 true).1 := by
  exact (emit_once_cleanup_only_on_success _ _ _ _).1 7
    (by simp [EventBus.init, EventBus.on, EventBus.emit, sortHandlers, dispatchLoop])

/-- Dataclass equality on `_Handler` holds exactly when the compared fields
(priority and registration order) agree. -/
theorem _Handler.pyEq_iff (a b : _Handler) :
    _Handler.pyEq a b = true ↔ a.priority = b.priority ∧ a.order = b.order := by
  simp only [_Handler.pyEq, _Handler.sort_index, Bool.and_eq_true, beq_iff_eq,
    Prod.mk.injEq]
  omega

/-- C4: the post-dispatch cleanup keys on record identity (the compared
fields of the record, in which the registration order is unique), never on
callback value: with a snapshot-derived removal set whose records all carry
orders from before a registration, a record for the same callback registered
after the snapshot survives the cleanup and stays in the registry, even when
the removal set contains a once record with that very callback, while every
record of the removal set itself is gone after the cleanup. -/
theorem once_cleanup_record_identity (bus : EventBus) (event : String)
    (cb : Callback) (p : Int) (o : Bool) (toRemove : List _Handler)
    (hcb : cb.callable = true)
    (hle : ∀ t ∈ toRemove, t.order ≤ bus.counter)
    (_hsame : ∃ t ∈ toRemove, t.func = cb.id ∧ t.once = true) :
    ((⟨p, bus.counter + 1, cb.id, o⟩ : _Handler)
        ∈ ((bus.on event cb p o).1.onceCleanup event toRemove).handlers event)
    ∧ (∀ t ∈ toRemove,
        t ∉ ((bus.on event cb p o).1.onceCleanup event toRemove).handlers event) := by
  have hbus' : ((bus.on event cb p o).1).handlers event
      = bus.handlers event ++ [⟨p, bus.counter + 1, cb.id, o⟩] := by
    simp [EventBus.on, hcb]
  by_cases hemp : toRemove = []
  · subst hemp
    refine ⟨?_, fun t ht => absurd ht (List.not_mem_nil t)⟩
    simp [EventBus.onceCleanup, hbus']
  · have hne : toRemove.isEmpty = false := by
      simpa [List.isEmpty_iff] using hemp
    have hclean : ((bus.on event cb p o).1.onceCleanup event toRemove).handlers event
        = (((bus.on event cb p o).1).handlers event).filter
            (fun x => !(toRemove.any (fun t => x.pyEq t))) := by
      simp [EventBus.onceCleanup, hne]
    constructor
    · rw [hclean, List.mem_filter]
      refine ⟨by simp [hbus'], ?_⟩
      simp only [Bool.not_eq_true', List.any_eq_false]
      intro t ht
      rw [_Handler.pyEq_iff]
      dsimp only
      have := hle t ht
      omega
    · intro t ht
      rw [hclean, List.mem_filter]
      rintro ⟨-, hkeep⟩
      simp only [Bool.not_eq_true', List.any_eq_false] at hkeep
      exact hkeep t ht ((_Handler.pyEq_iff t t).2 ⟨rfl, rfl⟩)

/-- C4 witness: record `⟨0,1,1,once⟩` for callback 1 is in the removal set;
the record for the same callback 1 registered afterwards (order 2) survives
the cleanup. -/
theorem once_cleanup_record_identity_witness :
    ((⟨0, 2, 1, false⟩ : _Handler)
        ∈ ((((EventBus.init.on "e" ⟨1, true⟩ 0 true).1).on "e" ⟨1, true⟩ 0 false).1.onceCleanup
            "e" [⟨0, 1, 1, true⟩]).handlers "e")
    ∧ ((⟨0, 1, 1, true⟩ : _Handler)
        ∉ ((((EventBus.init.on "e" ⟨1, true⟩ 0 true).1).on "e" ⟨1, true⟩ 0 false).1.onceCleanup
            "e" [⟨0, 1, 1, true⟩]).handlers "e") := by
  have h := once_cleanup_record_identity ((EventBus.init.on "e" ⟨1, true⟩ 0 true).1)
      "e" ⟨1, true⟩ 0 false [⟨0, 1, 1, true⟩] rfl
      (by intro t ht; simp at ht; subst ht; rfl)
      ⟨⟨0, 1, 1, true⟩, by simp, rfl, rfl⟩
  exact ⟨h.1, h.2 ⟨0, 1, 1, true⟩ (by simp)⟩

/-- C5: `off` with `none` removes every record for the event and returns the
count removed; `off` with a callback removes exactly the records whose stored
callback is identical to it, leaves records with other callbacks and other
events untouched, and returns the number removed; when nothing matches (in
particular for an unknown event) it returns 0 and the registry is unchanged —
never an error. -/
theorem off_contract (bus : EventBus) (event : String) :
    ((bus.off event none).2 = (bus.handlers event).length
      ∧ (bus.off event none).1.handlers event = [])
    ∧ (∀ f : Nat,
        (bus.off event (some f)).1.handlers event
          = (bus.handlers event).filter (fun h => h.func != f)
        ∧ (bus.off event (some f)).2
          = ((bus.handlers event).filter (fun h => h.func == f)).length)
    ∧ (∀ e2, e2 ≠ event →
        (bus.off event none).1.handlers e2 = bus.handlers e2
        ∧ ∀ f, (bus.off event (some f)).1.handlers e2 = bus.handlers e2)
    ∧ (∀ f : Nat, (∀ h ∈ bus.handlers event, h.func ≠ f) →
        (bus.off event (some f)).2 = 0
        ∧ (∀ e2, (bus.off event (some f)).1.handlers e2 = bus.handlers e2)
        ∧ (bus.off event (some f)).1.counter = bus.counter) := by
  have hlen : ∀ f : Nat,
      (bus.handlers event).length
        - ((bus.handlers event).filter (fun h => h.func != f)).length
      = ((bus.handlers event).filter (fun h => h.func == f)).length := by
    intro f
    have h := List.length_eq_length_filter_add (l := bus.handlers event)
      (fun h => h.func == f)
    have hb : ((bus.handlers event).filter (fun h => h.func != f))
        = ((bus.handlers event).filter (fun h => !(h.func == f))) := by
      simp [bne]
    rw [hb]
    omega
  by_cases hemp : (bus.handlers event).isEmpty
  · have hnil : bus.handlers event = [] := List.isEmpty_iff.1 hemp
    refine ⟨⟨?_, ?_⟩, fun f => ⟨?_, ?_⟩, fun e2 he2 => ⟨?_, fun f => ?_⟩,
      fun f hf => ⟨?_, fun e2 => ?_, ?_⟩⟩ <;>
      simp [EventBus.off, hemp, hnil]
  · have hne : (bus.handlers event).isEmpty = false := Bool.eq_false_iff.2 hemp
    refine ⟨⟨?_, ?_⟩, fun f => ⟨?_, ?_⟩, fun e2 he2 => ⟨?_, fun f => ?_⟩,
      fun f hf => ?_⟩
    · simp [EventBus.off, hne]
    · simp [EventBus.off, hne]
    · simp [EventBus.off, hne]
    · simp only [EventBus.off, hne]
      simp [hlen f]
    · simp [EventBus.off, hne, he2]
    · simp [EventBus.off, hne, he2]
    · have hall : (bus.handlers event).filter (fun h => h.func != f)
          = bus.handlers event := by
        rw [List.filter_eq_self]
        intro a ha
        simpa using hf a ha
      refine ⟨?_, fun e2 => ?_, ?_⟩
      · simp only [EventBus.off, hne]
        simp [hall]
      · by_cases he2 : e2 = event
        · subst he2
          simp only [EventBus.off, hne]
          simp [hall]
        · simp [EventBus.off, hne, he2]
      · simp [EventBus.off, hne]

/-- C5 witness: on a bus with callbacks 1 and 2 registered for `"e"`,
removing callback 5 (never registered) returns 0; removing `none` returns 2
and empties the event; removing callback 1 returns 1 and keeps callback 2. -/
theorem off_contract_witness :
    ((((EventBus.init.on "e" ⟨1, true⟩ 0 false).1.on "e" ⟨2, true⟩ 0 false).1.off
        "e" (some 5)).2 = 0)
    ∧ ((((EventBus.init.on "e" ⟨1, true⟩ 0 false).1.on "e" ⟨2, true⟩ 0 false).1.off
        "e" none).2 = 2)
    ∧ ((((EventBus.init.on "e" ⟨1, true⟩ 0 false).1.on "e" ⟨2, true⟩ 0 false).1.off
        "e" (some 1)).1.list_receivers "e" = [2]) := by
  have h := off_contract
    (((EventBus.init.on "e" ⟨1, true⟩ 0 false).1.on "e" ⟨2, true⟩ 0 false).1) "e"
  refine ⟨(h.2.2.2 5 ?_).1, ?_, ?_⟩
  · intro x hx
    simp [EventBus.init, EventBus.on] at hx
    rcases hx with rfl | rfl <;> simp
  · rw [h.1.1]
    simp [EventBus.init, EventBus.on]
  · rw [EventBus.list_receivers, (h.2.1 1).1]
    simp [EventBus.init, EventBus.on]

/-- C6: `on` with a non-callable callback raises the invalid-handler error
(`TypeError`) synchronously, leaving the state as it was at the raise and
performing no retry (the call's entire behaviour is that single error
return); with a callable callback it succeeds, appending exactly one new
record for the event carrying the bus's next sequence number, and touches no
other event. -/
theorem on_contract (bus : EventBus) (event : String) (cb : Callback)
    (p : Int) (o : Bool) :
    (cb.callable = false →
        bus.on event cb p o
          = (bus, Except.error (PyErr.typeError "handler must be callable")))
    ∧ (cb.callable = true →
        (bus.on event cb p o).2 = Except.ok ()
        ∧ (bus.on event cb p o).1.handlers event
            = bus.handlers event ++ [⟨p, bus.counter + 1, cb.id, o⟩]
        ∧ (bus.on event cb p o).1.counter = bus.counter + 1
        ∧ (∀ e2, e2 ≠ event → (bus.on event cb p o).1.handlers e2 = bus.handlers e2)) := by
  constructor
  · intro hcb
    simp [EventBus.on, hcb]
  · intro hcb
    refine ⟨by simp [EventBus.on, hcb], by simp [EventBus.on, hcb],
      by simp [EventBus.on, hcb], fun e2 he2 => by simp [EventBus.on, hcb, he2]⟩

/-- C6 witness: a non-callable callback yields the error and an unchanged
state; a callable one registers with sequence number 1 on a fresh bus. -/
theorem on_contract_witness :
    (EventBus.init.on "e" ⟨1, false⟩ 0 false
        = (EventBus.init, Except.error (PyErr.typeError "handler must be callable")))
    ∧ (EventBus.init.on "e" ⟨1, true⟩ 0 false).2 = Except.ok () :=
  ⟨(on_contract EventBus.init "e" ⟨1, false⟩ 0 false).1 rfl,
   ((on_contract EventBus.init "e" ⟨1, true⟩ 0 false).2 rfl).1⟩

/-- C10: a `register` call failing on a non-callable callback leaves the bus
exactly as it was — the raise precedes every mutation — so the next
successful registration receives the same sequence number it would have
received had the failed call never happened: no sequence gaps. -/
theorem failed_on_leaves_bus_unchanged (bus : EventBus) (event : String)
    (cb : Callback) (p : Int) (o : Bool) (hcb : cb.callable = false) :
    (bus.on event cb p o).1 = bus
    ∧ (∀ event2 (cb2 : Callback) (p2 : Int) (o2 : Bool), cb2.callable = true →
        ((bus.on event cb p o).1.on event2 cb2 p2 o2).1.handlers event2
          = bus.handlers event2 ++ [⟨p2, bus.counter + 1, cb2.id, o2⟩]
        ∧ ((bus.on event cb p o).1.on event2 cb2 p2 o2).1.counter
          = bus.counter + 1) := by
  have h1 : (bus.on event cb p o).1 = bus := by simp [EventBus.on, hcb]
  refine ⟨h1, fun event2 cb2 p2 o2 hcb2 => ?_⟩
  rw [h1]
  exact ⟨by simp [EventBus.on, hcb2], by simp [EventBus.on, hcb2]⟩

/-- C10 witness: after a failed registration on a fresh bus, the next
successful registration still gets sequence number 1. -/
theorem failed_on_leaves_bus_unchanged_witness :
    ((EventBus.init.on "e" ⟨1, false⟩ 0 false).1.on "e" ⟨2, true⟩ 0 false).1.counter = 1 := by
  have h := failed_on_leaves_bus_unchanged EventBus.init "e" ⟨1, false⟩ 0 false rfl
  simpa [EventBus.init] using (h.2 "e" ⟨2, true⟩ 0 false rfl).2

/-- The world component of `emit` is the one produced by the handler loop,
whether or not a handler raised. -/
theorem emit_world (bus : EventBus) (beh : Nat → Option Nat) (event : String)
    (w : World) :
    (bus.emit beh event w).2.2
      = (dispatchLoop beh event (sortHandlers (bus.handlers event)) w []).2 := by
  unfold EventBus.emit
  rcases dispatchLoop beh event (sortHandlers (bus.handlers event)) w [] with ⟨r, w2⟩
  cases r <;> rfl

/-- C7: a `once` handler whose record is invoked by a dispatch in which every
handler completes is absent from `list_receivers` immediately after the
dispatch, and a second dispatch of the same event does not invoke it (its
callback never reaches the second dispatch's log). -/
theorem once_handler_removed_and_not_reinvoked (bus : EventBus)
    (beh : Nat → Option Nat) (event : String) (w : World) (r : _Handler)
    (hr : r ∈ bus.handlers event)
    (honce : r.once = true)
    (hok : ∀ x ∈ bus.handlers event, beh x.func = none)
    (huniq : ∀ x ∈ bus.handlers event, x.func = r.func → x = r) :
    (r.func ∉ ((bus.emit beh event w).2.1.list_receivers event))
    ∧ (∀ w2 : World, (r.func, event) ∉ w2.log →
        (r.func, event) ∉ ((bus.emit beh event w).2.1.emit beh event w2).2.2.log) := by
  have hbus' : (bus.emit beh event w).2.1
      = bus.onceCleanup event ((sortHandlers (bus.handlers event)).filter (fun x => x.once)) := by
    rw [emit_eq_of_all_ok _ _ _ _ hok]
  have hrtr : r ∈ (sortHandlers (bus.handlers event)).filter (fun x => x.once) :=
    List.mem_filter.2 ⟨mem_sortHandlers.2 hr, honce⟩
  have hnetr : ((sortHandlers (bus.handlers event)).filter (fun x => x.once)).isEmpty = false := by
    rw [Bool.eq_false_iff, ne_eq, List.isEmpty_iff]
    intro hnil
    rw [hnil] at hrtr
    exact List.not_mem_nil r hrtr
  have hcl : ((bus.emit beh event w).2.1).handlers event
      = (bus.handlers event).filter
          (fun x => !(((sortHandlers (bus.handlers event)).filter (fun y => y.once)).any
            (fun t => x.pyEq t))) := by
    rw [hbus']
    simp [EventBus.onceCleanup, hnetr]
  have hfun : ∀ x ∈ ((bus.emit beh event w).2.1).handlers event, x.func ≠ r.func := by
    intro x hx hxf
    rw [hcl, List.mem_filter] at hx
    obtain ⟨hxm, hkeep⟩ := hx
    have hxr : x = r := huniq x hxm hxf
    subst hxr
    simp only [Bool.not_eq_true', List.any_eq_false] at hkeep
    exact hkeep x hrtr ((_Handler.pyEq_iff x x).2 ⟨rfl, rfl⟩)
  constructor
  · intro hmem
    rw [EventBus.list_receivers, List.mem_map] at hmem
    obtain ⟨x, hx, hxf⟩ := hmem
    exact hfun x hx hxf
  · intro w2 hw2 hmem
    rw [emit_world] at hmem
    rcases dispatchLoop_log_mem beh event _ w2 [] _ hmem with hold | ⟨x, hx, hq⟩
    · exact hw2 hold
    · have hxm : x ∈ ((bus.emit beh event w).2.1).handlers event := mem_sortHandlers.1 hx
      have : x.func = r.func := by
        have := congrArg Prod.fst hq
        simpa using this.symm
      exact hfun x hxm this

/-- C7 witness: callback 1 registered `once` on a fresh bus is not listed
after a successful dispatch, and a second dispatch never logs it again. -/
theorem once_handler_removed_and_not_reinvoked_witness :
    ((1 : Nat) ∉ (((EventBus.init.on "e" ⟨1, true⟩ 0 true).1.emit (fun _ => none) "e"
        { log := [] }).2.1.list_receivers "e"))
    ∧ ((1, "e") ∉ ((((EventBus.init.on "e" ⟨1, true⟩ 0 true).1.emit (fun _ => none) "e"
        { log := [] }).2.1.emit (fun _ => none) "e" { log := [] }).2.2.log)) := by
  have h := once_handler_removed_and_not_reinvoked
      ((EventBus.init.on "e" ⟨1, true⟩ 0 true).1) (fun _ => none) "e" { log := [] }
      ⟨0, 1, 1, true⟩ (by simp [EventBus.init, EventBus.on]) rfl
      (fun x hx => rfl)
      (by intro x hx hfx
          simp [EventBus.init, EventBus.on] at hx
          exact hx)
  exact ⟨h.1, h.2 { log := [] } (by simp)⟩

/-- The sequence-number invariant of a bus: per-event records carry strictly
increasing (hence pairwise distinct) sequence numbers in registration order,
records of different events never share a sequence number, and every live
sequence number is at most the counter (so a fresh `counter + 1` is never a
reuse). -/
def SeqInv (bus : EventBus) : Prop :=
  (∀ e, (bus.handlers e).Pairwise (fun a b => a.order < b.order))
  ∧ (∀ e1 e2, e1 ≠ e2 → ∀ a ∈ bus.handlers e1, ∀ b ∈ bus.handlers e2,
      a.order ≠ b.order)
  ∧ (∀ e, ∀ h ∈ bus.handlers e, h.order ≤ bus.counter)

/-- The invariant survives any shrinking of the per-event lists that keeps
the counter. -/
theorem seqInv_of_sublist (bus bus' : EventBus)
    (hc : bus'.counter = bus.counter)
    (hs : ∀ e, (bus'.handlers e).Sublist (bus.handlers e))
    (h : SeqInv bus) : SeqInv bus' := by
  obtain ⟨h1, h2, h3⟩ := h
  refine ⟨fun e => (h1 e).sublist (hs e),
    fun e1 e2 hne a ha b hb => h2 e1 e2 hne a ((hs e1).subset ha) b ((hs e2).subset hb),
    fun e h hh => ?_⟩
  rw [hc]
  exact h3 e h ((hs e).subset hh)

theorem seqInv_onceCleanup (bus : EventBus) (event : String)
    (tr : List _Handler) (h : SeqInv bus) : SeqInv (bus.onceCleanup event tr) := by
  unfold EventBus.onceCleanup
  split
  · exact h
  · refine seqInv_of_sublist bus _ rfl (fun e => ?_) h
    by_cases he : e = event
    · subst he
      simp only [if_pos rfl]
      exact List.filter_sublist _
    · simp [he]

/-- C8: the sequence-number invariant is preserved by every operation —
`on` (register), `off` (unregister), `clear` and `emit` (dispatch) — no two
records of the registry ever share a sequence number, sequence numbers are
strictly increasing in registration order and never reused, and every
successful registration advances the counter by exactly one regardless of
the event name. -/
theorem sequence_invariant_preserved (bus : EventBus) (hinv : SeqInv bus) :
    (∀ event (cb : Callback) (p : Int) (o : Bool),
        SeqInv (bus.on event cb p o).1
        ∧ ((bus.on event cb p o).2 = Except.ok () →
            (bus.on event cb p o).1.counter = bus.counter + 1))
    ∧ (∀ event f, SeqInv (bus.off event f).1)
    ∧ SeqInv bus.clear
    ∧ (∀ beh event w, SeqInv (bus.emit beh event w).2.1) := by
  obtain ⟨h1, h2, h3⟩ := hinv
  refine ⟨fun event cb p o => ?_, fun event f => ?_, ?_, fun beh event w => ?_⟩
  · cases hcb : cb.callable with
    | false =>
        constructor
        · have hsame : (bus.on event cb p o).1 = bus := by simp [EventBus.on, hcb]
          rw [hsame]
          exact ⟨h1, h2, h3⟩
        · intro hok
          simp [EventBus.on, hcb] at hok
    | true =>
        have hb : bus.on event cb p o
            = ({ handlers := fun e =>
                  if e = event then bus.handlers e ++ [⟨p, bus.counter + 1, cb.id, o⟩]
                  else bus.handlers e,
                 counter := bus.counter + 1
}, Except.ok ()) := by
          simp [EventBus.on, hcb]
        rw [hb]
        refine ⟨⟨fun e => ?_, fun e1 e2 hne a ha b hb2 => ?_, fun e h hh => ?_⟩,
          fun _ => rfl⟩
        · dsimp only
          by_cases he : e = event
          · subst he
            rw [if_pos rfl, List.pairwise_append]
            refine ⟨h1 e, List.pairwise_singleton _ _, fun a ha b hb2 => ?_⟩
            rw [List.mem_singleton] at hb2
            subst hb2
            have := h3 e a ha
            dsimp only
            omega
          · rw [if_neg he]
            exact h1 e
        · dsimp only at ha hb2 ⊢
          by_cases he1 : e1 = event <;> by_cases he2 : e2 = event
          · exact absurd (he1.trans he2.symm) hne
          · rw [if_pos he1] at ha
            rw [if_neg he2] at hb2
            rcases List.mem_append.1 ha with ha' | ha'
            · exact h2 e1 e2 hne a ha' b hb2
            · rw [List.mem_singleton] at ha'
              subst ha'
              have := h3 e2 b hb2
              dsimp only
              omega
          · rw [if_neg he1] at ha
            rw [if_pos he2] at hb2
            rcases List.mem_append.1 hb2 with hb' | hb'
            · exact h2 e1 e2 hne a ha b hb'
            · rw [List.mem_singleton] at hb'
              subst hb'
              have := h3 e1 a ha
              dsimp only
              omega
          · rw [if_neg he1] at ha
            rw [if_neg he2] at hb2
            exact h2 e1 e2 hne a ha b hb2
        · dsimp only at hh ⊢
          by_cases he : e = event
          · rw [if_pos he] at hh
            rcases List.mem_append.1 hh with hh' | hh'
            · have := h3 e h (he ▸ hh')
              omega
            · rw [List.mem_singleton] at hh'
              subst hh'
              dsimp only
              omega
          · rw [if_neg he] at hh
            have := h3 e h hh
            omega
  · by_cases hemp : (bus.handlers event).isEmpty
    · have hsame : (bus.off event f).1 = bus := by
        cases f <;> simp [EventBus.off, hemp]
      rw [hsame]
      exact ⟨h1, h2, h3⟩
    · have hne : (bus.handlers event).isEmpty = false := Bool.eq_false_iff.2 hemp
      refine seqInv_of_sublist bus _ ?_ (fun e => ?_) ⟨h1, h2, h3⟩
      · cases f <;> simp [EventBus.off, hne]
      · cases f with
        | none =>
            by_cases he : e = event <;> simp [EventBus.off, hne, he]
        | some fv =>
            by_cases he : e = event <;>
              simp [EventBus.off, hne, he, List.filter_sublist]
  · refine seqInv_of_sublist bus _ rfl (fun e => ?_) ⟨h1, h2, h3⟩
    simp [EventBus.clear]
  · unfold EventBus.emit
    rcases dispatchLoop beh event (sortHandlers (bus.handlers event)) w [] with ⟨r, w2⟩
    cases r with
    | error e => exact ⟨h1, h2, h3⟩
    | ok tr => exact seqInv_onceCleanup bus event tr ⟨h1, h2, h3⟩

/-- C8 witness: the empty bus satisfies the invariant and a registration on
it preserves the invariant. -/
theorem sequence_invariant_preserved_witness :
    SeqInv ((EventBus.init.on "e" ⟨1, true⟩ 0 false).1) := by
  have h0 : SeqInv EventBus.init :=
    ⟨fun e => List.Pairwise.nil,
     fun e1 e2 hne a ha b hb => absurd ha (List.not_mem_nil a),
     fun e h hh => absurd hh (List.not_mem_nil h)⟩
  exact ((sequence_invariant_preserved EventBus.init h0).1 "e" ⟨1, true⟩ 0 false).1

/-- C9: `emit_sync` has exactly two modes distinguished by its return value:
with no running loop it runs the dispatch to completion synchronously and
returns `none` (its result, registry and world are exactly those of the
completed `emit`); with a running loop it returns `some` task handle for the
pending dispatch without blocking — state and world are untouched at return
time and the handle carries the scheduled dispatch. -/
theorem emit_sync_two_modes (bus : EventBus) (loopRunning : Bool)
    (beh : Nat → Option Nat) (event : String) (w : World) :
    (loopRunning = false →
        (bus.emit_sync loopRunning beh event w).1 = none
        ∧ (bus.emit_sync loopRunning beh event w).2 = bus.emit beh event w)
    ∧ (loopRunning = true →
        (bus.emit_sync loopRunning beh event w).1
            = some { coro := bus.emit beh event w
}
        ∧ (bus.emit_sync loopRunning beh event w).2 = (Except.ok (), bus, w)) := by
  constructor
  · intro h
    subst h
    exact ⟨rfl, rfl⟩
  · intro h
    subst h
    exact ⟨rfl, rfl⟩

/-- C9 witness: with no loop the call returns `none`; with a loop it returns
the task handle carrying the pending dispatch. -/
theorem emit_sync_two_modes_witness :
    ((EventBus.init.emit_sync false (fun _ => none) "e" { log := [] }).1 = none)
    ∧ ((EventBus.init.emit_sync true (fun _ => none) "e" { log := [] }).1
        = some { coro := EventBus.init.emit (fun _ => none) "e" { log := [] }
}) :=
  ⟨((emit_sync_two_modes EventBus.init false (fun _ => none) "e" { log := [] }).1 rfl).1,
   ((emit_sync_two_modes EventBus.init true (fun _ => none) "e" { log := [] }).2 rfl).1⟩

end Microevents
